import Mathlib

/-!
Verification development for the build-reproducibility checker
`scripts/compare_checksums.py`.

The script is embedded shallowly:

* Python dicts become association lists (`Inner`, `Table`) whose insertion
  function (`tableInsert`) mirrors dict semantics: overwriting an existing
  key keeps its position, a new key is appended at the end.  A dict never
  holds a key twice; well-formedness of a table (`WFt`) records that.
* Python string comparison (used by `sorted`) is lexicographic on code
  points; `lexLt`/`strLe` implement exactly that on `String.data`, because
  the kernel cannot evaluate the byte-oriented builtin `String.ltb`.
* `str.replace(pat, repl)` (which replaces every non-overlapping
  occurrence, scanning left to right) is embedded as `pyReplace`.
* The SHA-256 implementation lives in the Python standard library, not in
  this repository, so the hash itself is modelled from the spec (see
  `sha256`); the streaming/chunking logic around it is repository code and
  is embedded faithfully (`readChunks`, `calculate_file_checksum`).
* The size table reaching `find_inconsistencies` is a
  `collections.defaultdict(dict)`: subscripting a missing key inserts an
  empty inner dict.  The embedding threads that state explicitly; the
  field `Findings.sizes_after` is the size table as it stands after the
  detector ran (it differs from the input exactly when the detector
  mutated its argument).
-/

namespace CompareChecksums

/-- Strict lexicographic comparison of character lists by code point,
the order Python uses when comparing strings. -/
def lexLt : List Char → List Char → Bool
  | _, [] => false
  | [], _ :: _ => true
  | a :: as, b :: bs =>
    if a.toNat < b.toNat then true
    else if b.toNat < a.toNat then false
    else lexLt as bs

/-- Python string order (`a <= b`), as a proposition on Lean strings. -/
def strLe (a b : String) : Prop := lexLt b.data a.data = false

instance : DecidableRel strLe := fun a b => by unfold strLe; infer_instance

/-- Python `sorted` on a list of strings. -/
def sortStr (l : List String) : List String := List.insertionSort strLe l

/-- Python `s.startswith(pre)`. -/
def strStartsWith (s pre : String) : Bool :=
  decide (pre.data = s.data.take pre.data.length)

/-- Python `s.replace(pat, repl)` on character lists: every non-overlapping
occurrence of `pat` is replaced by `repl`, scanning left to right.  (The
guard `pat ≠ []` keeps the function total; the script only uses the
non-empty pattern `"build-"`.) -/
def pyReplace (pat repl : List Char) : List Char → List Char
  | [] => []
  | c :: rest =>
    if h : pat ≠ [] ∧ pat = (c :: rest).take pat.length then
      repl ++ pyReplace pat repl ((c :: rest).drop pat.length)
    else c :: pyReplace pat repl rest
termination_by s => s.length
decreasing_by
  · simp only [List.length_drop]
    have hp : 0 < pat.length := List.length_pos.mpr h.1
    simp only [List.length_cons]
    omega
  · simp only [List.length_cons]
    omega

/-- Python `s.replace(pat, repl)` on Lean strings. -/
def pyReplaceStr (s pat repl : String) : String :=
  ⟨pyReplace pat.data repl.data s.data⟩

/-- The build identifier the script derives from a build directory name:
`os.path.basename(build_path).replace("build-", "")`
(`compare_checksums`, line 59; `generate_report`, line 125). -/
def buildNumberOf (name : String) : String := pyReplaceStr name "build-" ""

/-- Python `os.path.basename` for the slash-separated paths this script
builds with `os.path.join`. -/
def basename (p : String) : String := (p.splitOn "/").getLastD ""

/-! ### The hash (`calculate_file_checksum`) -/

/-- Modelled from the spec: the repository calls `hashlib.sha256` from the
Python standard library, which is not part of this repository.  The spec
requires only a deterministic 256-bit digest of the exact byte sequence
("SHA-256 equivalent: 256-bit digest, collision-resistant, deterministic
over the exact byte sequence"); the digest is modelled as a concrete
deterministic fold of the byte sequence into a number below `2 ^ 256`. -/
def sha256 (msg : List Nat) : Nat :=
  msg.foldl (fun h b => (h * 257 + b % 256 + 1) % 2 ^ 256) 0

/-- State of a streaming hash object: the bytes fed to it so far.
Modelled from the spec: a hash object is "deterministic over the exact
byte sequence" it has consumed. -/
structure Sha256State where
  consumed : List Nat
deriving DecidableEq

/-- `hashlib.sha256()`: a fresh hash object. -/
def sha256_init : Sha256State := ⟨[]⟩

/-- `h.update(block)`: feed more bytes to the hash object. -/
def sha256_update (st : Sha256State) (block : List Nat) : Sha256State :=
  ⟨st.consumed ++ block⟩

/-- Hexadecimal rendering of a number, for `hexdigest`. -/
def hexOfNat (n : Nat) : String := ⟨Nat.toDigits 16 n⟩

/-- `h.hexdigest()`: digest of everything consumed so far. -/
def sha256_hexdigest (st : Sha256State) : String := hexOfNat (sha256 st.consumed)

/-- The read loop `iter(lambda: f.read(4096), b"")`: split the file
content into successive chunks of `n` bytes (the final chunk shorter),
stopping at end of file.  (`n = 0` returns no chunks; the script always
uses `n = 4096`.) -/
def readChunks (n : Nat) (content : List Nat) : List (List Nat) :=
  if h : n = 0 ∨ content = [] then []
  else content.take n :: readChunks n (content.drop n)
termination_by content.length
decreasing_by
  simp only [List.length_drop]
  push_neg at h
  have h1 : 0 < n := Nat.pos_of_ne_zero h.1
  have h2 : 0 < content.length := List.length_pos.mpr h.2
  omega

/-- `calculate_file_checksum` (lines 12-19): stream the file content
through the hash in 4096-byte chunks and return the hex digest. -/
def calculate_file_checksum (content : List Nat) : String :=
  sha256_hexdigest ((readChunks 4096 content).foldl sha256_update sha256_init)

/-! ### Tables (Python dicts of dicts) -/

/-- An inner dict: build identifier to value, in insertion order. -/
abbrev Inner (α : Type) := List (String × α)

/-- A table: relative file path to inner dict, in insertion order. -/
abbrev Table (α : Type) := List (String × Inner α)

/-- The keys of an association list, in order. -/
def keysOf {α : Type} (t : List (String × α)) : List String := t.map Prod.fst

/-- Lookup in an association list (`d[k]` on a dict holds the value of the
unique matching key; on a list the first match). -/
def tlookup {α : Type} (t : List (String × α)) (p : String) : Option α :=
  (t.find? (fun e => e.1 = p)).map Prod.snd

/-- `defaultdict(dict)` subscript, read part: the stored inner dict, or the
empty one when the key is absent. -/
def dget {α : Type} (t : Table α) (p : String) : Inner α :=
  match t.find? (fun e => e.1 = p) with
  | some e => e.2
  | none => []

/-- `defaultdict(dict)` subscript, write part: subscripting a missing key
inserts an empty inner dict at the end. -/
def dtouch {α : Type} (t : Table α) (p : String) : Table α :=
  if (t.find? (fun e => e.1 = p)).isSome then t else t ++ [(p, [])]

/-- `d[b] = v` on an inner dict: overwrite in place, or append a new key. -/
def innerInsert {α : Type} (d : Inner α) (b : String) (v : α) : Inner α :=
  if d.any (fun e => e.1 = b) then
    d.map (fun e => if e.1 = b then (b, v) else e)
  else d ++ [(b, v)]

/-- `t[p][b] = v` on a `defaultdict(dict)`. -/
def tableInsert {α : Type} (t : Table α) (p b : String) (v : α) : Table α :=
  if t.any (fun e => e.1 = p) then
    t.map (fun e => if e.1 = p then (p, innerInsert e.2 b v) else e)
  else t ++ [(p, innerInsert [] b v)]

/-- Well-formedness every Python dict of dicts enjoys: no duplicate path
keys, and no duplicate build keys inside any entry. -/
def WFt {α : Type} (t : Table α) : Prop :=
  (keysOf t).Nodup ∧ ∀ e ∈ t, (keysOf e.2).Nodup

instance {α : Type} [DecidableEq α] (t : Table α) : Decidable (WFt t) := by
  unfold WFt; infer_instance

/-! ### The detector (`find_inconsistencies`, lines 87-115) -/

/-- Result of `find_inconsistencies`, plus the state of the size-table
argument after the call (`sizes_after`); the caller passes a
`defaultdict`, so the call can extend it. -/
structure Findings where
  inconsistent_files : Table String
  missing_files : List (String × List String)
  size_differences : Table Nat
  sizes_after : Table Nat
deriving DecidableEq

/-- `all_build_numbers` (line 93): the set of build identifiers appearing
in some entry of the checksum table, as a deduplicated list. -/
def all_build_numbers (checksums : Table String) : List String :=
  (checksums.flatMap (fun e => keysOf e.2)).dedup

/-- The body of the loop of `find_inconsistencies` (lines 95-113) for one
checksum-table entry `e`. -/
def detectStep (allBN : List String) (acc : Findings) (e : String × Inner String) :
    Findings :=
  let build_numbers := keysOf e.2
  let miss :=
    if build_numbers.length < allBN.length then
      acc.missing_files ++
        [(e.1, sortStr (allBN.filter (fun b => decide (b ∉ build_numbers))))]
    else acc.missing_files
  if 1 < ((e.2.map Prod.snd).dedup).length then
    let file_build_sizes := dget acc.sizes_after e.1
    let sizes := dtouch acc.sizes_after e.1
    if 1 < ((file_build_sizes.map Prod.snd).dedup).length then
      ⟨acc.inconsistent_files ++ [e], miss,
        acc.size_differences ++ [(e.1, file_build_sizes)], sizes⟩
    else ⟨acc.inconsistent_files ++ [e], miss, acc.size_differences, sizes⟩
  else ⟨acc.inconsistent_files, miss, acc.size_differences, acc.sizes_after⟩

/-- `find_inconsistencies(checksums, file_sizes)` (lines 87-115). -/
def find_inconsistencies (checksums : Table String) (file_sizes : Table Nat) :
    Findings :=
  checksums.foldl (detectStep (all_build_numbers checksums))
    ⟨[], [], [], file_sizes⟩

/-- The three findings of the detector (what the caller consumes). -/
def Findings.results (f : Findings) :
    Table String × List (String × List String) × Table Nat :=
  (f.inconsistent_files, f.missing_files, f.size_differences)

/-- Closed form of the inconsistent-checksum finding: the entries whose
values contain more than one distinct checksum. -/
def incP (l : Table String) : Table String :=
  l.filter (fun e => 1 < ((e.2.map Prod.snd).dedup).length)

/-- Closed form of the missing-files finding. -/
def missP (allBN : List String) (l : Table String) :
    List (String × List String) :=
  (l.filter (fun e => (keysOf e.2).length < allBN.length)).map
    (fun e => (e.1, sortStr (allBN.filter (fun b => decide (b ∉ keysOf e.2)))))

/-- Closed form of the size-differences finding. -/
def sdP (s : Table Nat) (l : Table String) : Table Nat :=
  ((incP l).filter (fun e => 1 < (((dget s e.1).map Prod.snd).dedup).length)).map
    (fun e => (e.1, dget s e.1))

/-! ### The collector (`compare_checksums`, lines 47-85) -/

/-- A regular file found by `os.walk` under one of the output directories
of a build: its path relative to the build root, its content bytes, and
its size from filesystem metadata (`os.path.getsize`). -/
structure BFile where
  rel_path : String
  content : List Nat
  size : Nat
deriving DecidableEq

/-- The three watched output directories of one build; `none` means the
directory does not exist and is silently skipped. -/
structure BuildDirs where
  dist_firefox : Option (List BFile)
  dist_chrome : Option (List BFile)
  dist_zip : Option (List BFile)
deriving DecidableEq

/-- The per-file body (lines 64-66 and its two copies): record checksum
and size under `(rel_path, build_number)` in the two tables. -/
def processFiles (acc : Table String × Table Nat) (bn : String)
    (files : List BFile) : Table String × Table Nat :=
  files.foldl
    (fun ts f =>
      (tableInsert ts.1 f.rel_path bn (calculate_file_checksum f.content),
       tableInsert ts.2 f.rel_path bn f.size))
    acc

/-- One `if os.path.exists(dir):` block of `compare_checksums`. -/
def processDir (acc : Table String × Table Nat) (bn : String)
    (dir : Option (List BFile)) : Table String × Table Nat :=
  match dir with
  | none => acc
  | some files => processFiles acc bn files

/-- The body of the build loop of `compare_checksums` (lines 57-82):
derive the build identifier from the basename of the build path, then
process the three output directories in order. -/
def compareStep (acc : Table String × Table Nat) (bp : String × BuildDirs) :
    Table String × Table Nat :=
  let build_number := buildNumberOf (basename bp.1)
  processDir
    (processDir (processDir acc build_number bp.2.dist_firefox)
      build_number bp.2.dist_chrome)
    build_number bp.2.dist_zip

/-- `compare_checksums(builds)` (lines 47-85): builds are (path, content)
pairs; the build identifier comes from the basename of the path. -/
def compare_checksums (builds : List (String × BuildDirs)) :
    Table String × Table Nat :=
  builds.foldl compareStep ([], [])

/-- The key structure of a table: each path with its list of build keys. -/
def skeleton {α : Type} (t : Table α) : List (String × List String) :=
  t.map (fun e => (e.1, keysOf e.2))

/-- Key-list insertion mirroring `innerInsert` on the key level. -/
def skelKeyInsert (ks : List String) (b : String) : List String :=
  if b ∈ ks then ks else ks ++ [b]

/-- Skeleton-level effect of `tableInsert`. -/
def skelInsert (sk : List (String × List String)) (p b : String) :
    List (String × List String) :=
  if sk.any (fun e => e.1 = p) then
    sk.map (fun e => if e.1 = p then (p, skelKeyInsert e.2 b) else e)
  else sk ++ [(p, [b])]

/-- The table holds a value at `(p, b)`. -/
def hasEntry {α : Type} (t : Table α) (p b : String) : Prop :=
  ∃ e ∈ t, e.1 = p ∧ b ∈ keysOf e.2

/-! ### The locator (`find_builds`, lines 33-45) and `main` (lines 167-202) -/

/-- `find_builds(dist_record_dir, version)`: `dirListing = none` models a
version directory that does not exist (`os.path.exists` false); otherwise
the children whose names start with `build-` are joined onto the version
directory and sorted. -/
def find_builds (version_dir : String) (dirListing : Option (List String)) :
    List String :=
  match dirListing with
  | none => []
  | some items =>
      sortStr ((items.filter (fun item => strStartsWith item "build-")).map
        (fun item => version_dir ++ "/" ++ item))

/-- Number of files the collector hashes in one build. -/
def countFiles (b : BuildDirs) : Nat :=
  (b.dist_firefox.getD []).length + (b.dist_chrome.getD []).length +
    (b.dist_zip.getD []).length

/-- Observable outcome of one run of `main`. -/
structure RunResult where
  exitCode : Nat
  hashes : Nat
  reportWritten : Bool
deriving DecidableEq

/-- `main` (lines 167-202): locate the builds; with zero builds exit 1
before hashing anything; otherwise collect, detect, report and exit 0.
`fs` maps a build path to the content of its output directories;
`writeOutput` is whether `--output` was given.  `hashes` counts the
files hashed (one checksum per visited file); I/O never fails in this
model. -/
def main_model (version_dir : String) (dirListing : Option (List String))
    (fs : String → BuildDirs) (writeOutput : Bool) : RunResult :=
  let builds := find_builds version_dir dirListing
  if builds = [] then ⟨1, 0, false⟩
  else
    let pairs := builds.map (fun b => (b, fs b))
    let tables := compare_checksums pairs
    let _findings := find_inconsistencies tables.1 tables.2
    ⟨0, (pairs.map (fun bp => countFiles bp.2)).sum, writeOutput⟩

/-- Python `pat in s` (substring containment), used to state when
`str.replace` can touch more than the leading prefix. -/
def hasOcc (pat : List Char) : List Char → Bool
  | [] => decide (pat = [])
  | c :: rest => (decide (pat = (c :: rest).take pat.length)) || hasOcc pat rest

/-! ## Lemmas: the string order -/

theorem lexLt_irrefl (a : List Char) : lexLt a a = false := by
  induction a with
  | nil => rfl
  | cons c as ih => simp [lexLt, ih]

theorem lexLt_asymm {a b : List Char} (h : lexLt a b = true) :
    lexLt b a = false := by
  induction a generalizing b with
  | nil =>
      cases b with
      | nil => simp [lexLt] at h
      | cons d bs => simp [lexLt]
  | cons c as ih =>
      cases b with
      | nil => simp [lexLt] at h
      | cons d bs =>
          by_cases h1 : c.toNat < d.toNat
          · simp [lexLt, h1, Nat.lt_asymm h1]
          · by_cases h2 : d.toNat < c.toNat
            · simp [lexLt, h1, h2] at h
            · simp only [lexLt, if_neg h1, if_neg h2] at h
              simp [lexLt, h1, h2, ih h]

theorem lexLt_conn {a b : List Char} (h1 : lexLt a b = false)
    (h2 : lexLt b a = false) : a = b := by
  induction a generalizing b with
  | nil =>
      cases b with
      | nil => rfl
      | cons d bs => simp [lexLt] at h1
  | cons c as ih =>
      cases b with
      | nil => simp [lexLt] at h2
      | cons d bs =>
          by_cases hc1 : c.toNat < d.toNat
          · simp [lexLt, hc1] at h1
          · by_cases hc2 : d.toNat < c.toNat
            · simp [lexLt, hc2] at h2
            · simp only [lexLt, if_neg hc1, if_neg hc2] at h1 h2
              have hcd : c = d := by
                have hn : c.toNat = d.toNat := by omega
                exact Char.ext (UInt32.ext hn)
              rw [hcd, ih h1 h2]

theorem lexLt_trans {a b c : List Char} (h1 : lexLt a b = true)
    (h2 : lexLt b c = true) : lexLt a c = true := by
  induction a generalizing b c with
  | nil =>
      cases c with
      | nil =>
          cases b with
          | nil => simp [lexLt] at h1
          | cons d bs => simp [lexLt] at h2
      | cons e cs => simp [lexLt]
  | cons x as ih =>
      cases b with
      | nil => simp [lexLt] at h1
      | cons y bs =>
          cases c with
          | nil => simp [lexLt] at h2
          | cons z cs =>
              simp only [lexLt] at h1 h2 ⊢
              by_cases hxy : x.toNat < y.toNat
              · by_cases hyz : y.toNat < z.toNat
                · simp [Nat.lt_trans hxy hyz]
                · by_cases hzy : z.toNat < y.toNat
                  · simp [hyz, hzy] at h2
                  · have : y.toNat = z.toNat := by omega
                    simp [this ▸ hxy]
              · by_cases hyx : y.toNat < x.toNat
                · simp [hxy, hyx] at h1
                · have hxy' : x.toNat = y.toNat := by omega
                  simp only [if_neg hxy, if_neg hyx] at h1
                  by_cases hyz : y.toNat < z.toNat
                  · simp [hxy' ▸ hyz]
                  · by_cases hzy : z.toNat < y.toNat
                    · simp [hyz, hzy] at h2
                    · simp only [if_neg hyz, if_neg hzy] at h2
                      have hxz : ¬ x.toNat < z.toNat := by omega
                      have hzx : ¬ z.toNat < x.toNat := by omega
                      simp [hxz, hzx, ih h1 h2]

theorem strLe_total : IsTotal String strLe := by
  constructor
  intro a b
  by_cases h : lexLt b.data a.data = false
  · exact Or.inl h
  · right
    rw [Bool.not_eq_false] at h
    exact lexLt_asymm h

theorem strLe_trans : IsTrans String strLe := by
  constructor
  intro a b c hab hbc
  unfold strLe at *
  by_cases h : lexLt c.data a.data = true
  · by_cases h2 : lexLt c.data b.data = true
    · rw [h2] at hbc; cases hbc
    · rw [Bool.not_eq_true] at h2
      by_cases h3 : lexLt b.data c.data = true
      · have := lexLt_trans h3 h
        rw [this] at hab; cases hab
      · rw [Bool.not_eq_true] at h3
        have : b.data = c.data := lexLt_conn h3 h2
        rw [← this] at h
        rw [h] at hab; cases hab
  · exact Bool.not_eq_true _ |>.mp h

theorem strLe_antisymm : IsAntisymm String strLe := by
  constructor
  intro a b hab hba
  exact String.ext (lexLt_conn hba hab)

theorem sortStr_sorted (l : List String) : List.Sorted strLe (sortStr l) :=
  @List.sorted_insertionSort String strLe _ strLe_total strLe_trans l

theorem sortStr_perm (l : List String) : (sortStr l).Perm l :=
  List.perm_insertionSort strLe l

theorem mem_sortStr {x : String} {l : List String} : x ∈ sortStr l ↔ x ∈ l :=
  (sortStr_perm l).mem_iff

theorem sortStr_eq_of_perm {l₁ l₂ : List String} (h : l₁.Perm l₂) :
    sortStr l₁ = sortStr l₂ :=
  @List.eq_of_perm_of_sorted String strLe strLe_antisymm _ _
    ((sortStr_perm l₁).trans (h.trans (sortStr_perm l₂).symm))
    (sortStr_sorted l₁) (sortStr_sorted l₂)

theorem lexLt_append (p a b : List Char) :
    lexLt (p ++ a) (p ++ b) = lexLt a b := by
  induction p with
  | nil => rfl
  | cons c ps ih => simp [lexLt, ih]

theorem strLe_append_iff (v a b : String) : strLe (v ++ a) (v ++ b) ↔ strLe a b := by
  unfold strLe
  rw [String.data_append, String.data_append, lexLt_append]

theorem sortStr_map_append (v : String) (l : List String) :
    sortStr (l.map (fun item => v ++ item)) = (sortStr l).map (fun item => v ++ item) := by
  apply @List.eq_of_perm_of_sorted String strLe strLe_antisymm
  · exact (sortStr_perm _).trans ((sortStr_perm l).symm.map _)
  · exact sortStr_sorted _
  · exact List.Pairwise.map _ (fun a b hab => (strLe_append_iff v a b).mpr hab)
      (sortStr_sorted l)

/-! ## Lemmas: association lists as dicts -/

theorem mem_keysOf {α : Type} {l : List (String × α)} {p : String} :
    p ∈ keysOf l ↔ ∃ e ∈ l, e.1 = p := by
  unfold keysOf
  exact List.mem_map

theorem find?_key_eq_none {α : Type} {l : List (String × α)} {p : String} :
    l.find? (fun e => e.1 = p) = none ↔ p ∉ keysOf l := by
  rw [List.find?_eq_none]
  constructor
  · intro h hex
    rcases mem_keysOf.mp hex with ⟨e, he, hk⟩
    have := h e he
    simp [hk] at this
  · intro h e he
    simp only [decide_eq_true_eq]
    intro hk
    exact h (mem_keysOf.mpr ⟨e, he, hk⟩)

theorem tlookup_eq_some_of_mem {α : Type} {l : List (String × α)} {p : String}
    {v : α} (hnd : (keysOf l).Nodup) (hmem : (p, v) ∈ l) :
    tlookup l p = some v := by
  induction l with
  | nil => cases hmem
  | cons e l ih =>
      simp only [keysOf, List.map_cons, List.nodup_cons] at hnd
      rcases List.mem_cons.mp hmem with h | h
      · rw [← h]
        simp [tlookup, List.find?_cons]
      · have hne : e.1 ≠ p := by
          intro hk
          exact hnd.1 (hk ▸ (mem_keysOf.mpr ⟨(p, v), h, rfl⟩))
        unfold tlookup at *
        rw [List.find?_cons, show (decide (e.1 = p)) = false by simp [hne]]
        exact ih hnd.2 h

theorem tlookup_mem {α : Type} {l : List (String × α)} {p : String} {v : α}
    (h : tlookup l p = some v) : (p, v) ∈ l := by
  unfold tlookup at h
  cases hf : l.find? (fun e => e.1 = p) with
  | none => rw [hf] at h; cases h
  | some e =>
      rw [hf] at h
      have h1 := List.mem_of_find?_eq_some hf
      have h2 := List.find?_some hf
      simp only [decide_eq_true_eq] at h2
      have hv : e.2 = v := by simpa using h
      have he : e = (p, v) := by
        cases e
        simp only at h2 hv
        rw [h2, hv]
      rw [← he]
      exact h1

theorem tlookup_iff_mem {α : Type} {l : List (String × α)} {p : String} {v : α}
    (hnd : (keysOf l).Nodup) : tlookup l p = some v ↔ (p, v) ∈ l :=
  ⟨tlookup_mem, tlookup_eq_some_of_mem hnd⟩

theorem find?_filter_of_nodup {α : Type} {l : List (String × α)}
    (q : String × α → Bool) (p : String) (hnd : (keysOf l).Nodup) :
    (l.filter q).find? (fun e => e.1 = p)
      = (l.find? (fun e => e.1 = p)).bind (fun e => if q e then some e else none) := by
  induction l with
  | nil => rfl
  | cons e l ih =>
      simp only [keysOf, List.map_cons, List.nodup_cons] at hnd
      by_cases hp : e.1 = p
      · have hnotl : p ∉ keysOf l := hp ▸ hnd.1
        by_cases hq : q e
        · simp [List.filter_cons, hq, List.find?_cons, hp]
        · simp only [List.filter_cons, hq, Bool.false_eq_true, if_false,
            List.find?_cons, show (decide (e.1 = p)) = true by simp [hp]]
          rw [find?_key_eq_none.mpr]
          · simp [hq]
          · intro hmem
            rcases mem_keysOf.mp hmem with ⟨x, hx, hk⟩
            exact hnotl (mem_keysOf.mpr ⟨x, List.mem_of_mem_filter hx, hk⟩)
      · by_cases hq : q e
        · simp only [List.filter_cons, hq, if_true, List.find?_cons,
            show (decide (e.1 = p)) = false by simp [hp]]
          exact ih hnd.2
        · simp only [List.filter_cons, hq, Bool.false_eq_true, if_false,
            List.find?_cons, show (decide (e.1 = p)) = false by simp [hp]]
          exact ih hnd.2

theorem find?_map_keyfixed {α β : Type} {l : List (String × α)}
    (g : String × α → String × β) (hg : ∀ e, (g e).1 = e.1) (p : String) :
    (l.map g).find? (fun e => e.1 = p)
      = (l.find? (fun e => e.1 = p)).map g := by
  induction l with
  | nil => rfl
  | cons e l ih =>
      simp only [List.map_cons, List.find?_cons, hg e]
      cases hd : decide (e.1 = p) with
      | true => simp
      | false => simpa using ih

theorem keysOf_map_keyfixed {α β : Type} {l : List (String × α)}
    (g : String × α → String × β) (hg : ∀ e, (g e).1 = e.1) :
    keysOf (l.map g) = keysOf l := by
  unfold keysOf
  rw [List.map_map]
  exact List.map_congr_left (fun e _ => hg e)

theorem keysOf_filter_mem {α : Type} {l : List (String × α)}
    {q : String × α → Bool} {p : String} :
    p ∈ keysOf (l.filter q) ↔ ∃ e ∈ l, e.1 = p ∧ q e = true := by
  rw [mem_keysOf]
  constructor
  · rintro ⟨e, he, hk⟩
    exact ⟨e, List.mem_of_mem_filter he, hk, List.of_mem_filter he⟩
  · rintro ⟨e, he, hk, hq⟩
    exact ⟨e, List.mem_filter.mpr ⟨he, hq⟩, hk⟩

/-! ## Lemmas: the detector computes the closed forms -/

theorem dget_dtouch {α : Type} (t : Table α) (p q : String) :
    dget (dtouch t p) q = dget t q := by
  unfold dtouch
  by_cases h : (t.find? (fun e => e.1 = p)).isSome
  · simp [h]
  · rw [if_neg h]
    unfold dget
    rw [List.find?_append]
    cases hfq : t.find? (fun e => e.1 = q) with
    | some e => simp
    | none =>
        simp only [Option.none_or]
        by_cases hpq : p = q
        · simp [List.find?_cons, hpq]
        · simp [List.find?_cons, hpq]

theorem detectStep_fields (allBN : List String) (s : Table Nat) (acc : Findings)
    (e : String × Inner String)
    (hacc : ∀ q, dget acc.sizes_after q = dget s q) :
    ((detectStep allBN acc e).inconsistent_files
        = acc.inconsistent_files
          ++ (if 1 < ((e.2.map Prod.snd).dedup).length then [e] else []))
    ∧ ((detectStep allBN acc e).missing_files
        = acc.missing_files
          ++ (if (keysOf e.2).length < allBN.length then
                [(e.1, sortStr (allBN.filter (fun b => decide (b ∉ keysOf e.2))))]
              else []))
    ∧ ((detectStep allBN acc e).size_differences
        = acc.size_differences
          ++ (if 1 < ((e.2.map Prod.snd).dedup).length
                ∧ 1 < (((dget s e.1).map Prod.snd).dedup).length then
                [(e.1, dget s e.1)]
              else []))
    ∧ (∀ q, dget (detectStep allBN acc e).sizes_after q = dget s q) := by
  unfold detectStep
  by_cases hm : (keysOf e.2).length < allBN.length <;>
    by_cases hinc : 1 < ((e.2.map Prod.snd).dedup).length <;>
    by_cases hsz : 1 < (((dget s e.1).map Prod.snd).dedup).length <;>
    simp [hm, hinc, hacc e.1, hsz, dget_dtouch, hacc]

theorem incP_cons (e : String × Inner String) (l : Table String) :
    incP (e :: l)
      = (if 1 < ((e.2.map Prod.snd).dedup).length then [e] else []) ++ incP l := by
  unfold incP
  rw [List.filter_cons]
  by_cases h : 1 < ((e.2.map Prod.snd).dedup).length <;> simp [h]

theorem missP_cons (allBN : List String) (e : String × Inner String)
    (l : Table String) :
    missP allBN (e :: l)
      = (if (keysOf e.2).length < allBN.length then
            [(e.1, sortStr (allBN.filter (fun b => decide (b ∉ keysOf e.2))))]
          else []) ++ missP allBN l := by
  unfold missP
  rw [List.filter_cons]
  by_cases h : (keysOf e.2).length < allBN.length <;> simp [h]

theorem sdP_cons (s : Table Nat) (e : String × Inner String) (l : Table String) :
    sdP s (e :: l)
      = (if 1 < ((e.2.map Prod.snd).dedup).length
            ∧ 1 < (((dget s e.1).map Prod.snd).dedup).length then
            [(e.1, dget s e.1)]
          else []) ++ sdP s l := by
  unfold sdP
  rw [incP_cons]
  by_cases h1 : 1 < ((e.2.map Prod.snd).dedup).length
  · by_cases h2 : 1 < (((dget s e.1).map Prod.snd).dedup).length
    · simp [h1, h2, List.filter_cons]
    · simp [h1, h2, List.filter_cons]
  · simp [h1]

theorem detect_fold_spec (allBN : List String) (s : Table Nat) :
    ∀ (l : Table String) (acc : Findings),
      (∀ q, dget acc.sizes_after q = dget s q) →
      ((l.foldl (detectStep allBN) acc).inconsistent_files
          = acc.inconsistent_files ++ incP l)
      ∧ ((l.foldl (detectStep allBN) acc).missing_files
          = acc.missing_files ++ missP allBN l)
      ∧ ((l.foldl (detectStep allBN) acc).size_differences
          = acc.size_differences ++ sdP s l)
      ∧ (∀ q, dget (l.foldl (detectStep allBN) acc).sizes_after q = dget s q) := by
  intro l
  induction l with
  | nil =>
      intro acc hacc
      refine ⟨by simp [incP], by simp [missP], by simp [sdP, incP], hacc⟩
  | cons e l ih =>
      intro acc hacc
      rw [List.foldl_cons]
      obtain ⟨h1, h2, h3, h4⟩ := detectStep_fields allBN s acc e hacc
      obtain ⟨g1, g2, g3, g4⟩ := ih (detectStep allBN acc e) h4
      refine ⟨?_, ?_, ?_, g4⟩
      · rw [g1, h1, incP_cons, List.append_assoc]
      · rw [g2, h2, missP_cons, List.append_assoc]
      · rw [g3, h3, sdP_cons, List.append_assoc]

theorem fi_inc (c : Table String) (s : Table Nat) :
    (find_inconsistencies c s).inconsistent_files = incP c := by
  have := (detect_fold_spec (all_build_numbers c) s c ⟨[], [], [], s⟩
    (fun q => rfl)).1
  simpa [find_inconsistencies] using this

theorem fi_miss (c : Table String) (s : Table Nat) :
    (find_inconsistencies c s).missing_files = missP (all_build_numbers c) c := by
  have := (detect_fold_spec (all_build_numbers c) s c ⟨[], [], [], s⟩
    (fun q => rfl)).2.1
  simpa [find_inconsistencies] using this

theorem fi_sd (c : Table String) (s : Table Nat) :
    (find_inconsistencies c s).size_differences = sdP s c := by
  have := (detect_fold_spec (all_build_numbers c) s c ⟨[], [], [], s⟩
    (fun q => rfl)).2.2.1
  simpa [find_inconsistencies] using this

theorem fi_sizes (c : Table String) (s : Table Nat) :
    ∀ q, dget (find_inconsistencies c s).sizes_after q = dget s q := by
  have := (detect_fold_spec (all_build_numbers c) s c ⟨[], [], [], s⟩
    (fun q => rfl)).2.2.2
  simpa [find_inconsistencies] using this

theorem mem_keysOf_incP {c : Table String} {p : String} :
    p ∈ keysOf (incP c) ↔
      ∃ e ∈ c, e.1 = p ∧ 1 < ((e.2.map Prod.snd).dedup).length := by
  unfold incP
  rw [keysOf_filter_mem]
  simp only [decide_eq_true_eq]

theorem tlookup_incP_iff {c : Table String} {p : String} {bc : Inner String}
    (hnd : (keysOf c).Nodup) :
    tlookup (incP c) p = some bc ↔
      tlookup c p = some bc ∧ 1 < ((bc.map Prod.snd).dedup).length := by
  unfold incP tlookup
  rw [find?_filter_of_nodup _ _ hnd]
  cases hf : c.find? (fun e => e.1 = p) with
  | none => simp
  | some e =>
      by_cases hcond : 1 < ((e.2.map Prod.snd).dedup).length
      · have hq : (decide (1 < ((e.2.map Prod.snd).dedup).length)) = true := by
          simpa using hcond
        rw [Option.some_bind, if_pos hq, Option.map_some']
        constructor
        · intro h
          refine ⟨h, ?_⟩
          rw [← Option.some_inj.mp h]
          exact hcond
        · exact fun h => h.1
      · have hq : ¬ (decide (1 < ((e.2.map Prod.snd).dedup).length)) = true := by
          simpa using hcond
        rw [Option.some_bind, if_neg hq, Option.map_none']
        constructor
        · intro h; cases h
        · rintro ⟨h1, h2⟩
          rw [Option.map_some'] at h1
          rw [← Option.some_inj.mp h1] at h2
          exact absurd h2 hcond

theorem mem_keysOf_sdP {c : Table String} {s : Table Nat} {p : String} :
    p ∈ keysOf (sdP s c) ↔
      p ∈ keysOf (incP c) ∧ 1 < (((dget s p).map Prod.snd).dedup).length := by
  unfold sdP
  rw [keysOf_map_keyfixed (fun e => (e.1, dget s e.1)) (fun e => rfl),
    keysOf_filter_mem]
  constructor
  · rintro ⟨e, he, hk, hq⟩
    refine ⟨mem_keysOf.mpr ⟨e, he, hk⟩, ?_⟩
    rw [← hk]
    simpa using hq
  · rintro ⟨hp, hq⟩
    rcases mem_keysOf.mp hp with ⟨e, he, hk⟩
    refine ⟨e, he, hk, ?_⟩
    rw [hk]
    simpa using hq

/-- C1: a path is in the size-differences finding exactly when it is in the
inconsistent-checksum finding and the builds holding a size entry for it
recorded more than one distinct size; the size-differences finding is a
subset of the inconsistent-checksum finding, and equal sizes keep a path
out of it even when the checksums differ. -/
theorem c1_size_differences_iff (c : Table String) (s : Table Nat)
    (hc : WFt c) (hs : WFt s) :
    ∀ p : String,
      (p ∈ keysOf (find_inconsistencies c s).size_differences ↔
        (p ∈ keysOf (find_inconsistencies c s).inconsistent_files
          ∧ 1 < (((dget s p).map Prod.snd).dedup).length))
      ∧ (p ∈ keysOf (find_inconsistencies c s).size_differences →
          p ∈ keysOf (find_inconsistencies c s).inconsistent_files)
      ∧ ((((dget s p).map Prod.snd).dedup).length ≤ 1 →
          p ∉ keysOf (find_inconsistencies c s).size_differences) := by
  intro p
  rw [fi_sd, fi_inc]
  refine ⟨mem_keysOf_sdP, fun h => (mem_keysOf_sdP.mp h).1, fun hle hmem => ?_⟩
  have := (mem_keysOf_sdP.mp hmem).2
  omega

theorem c1_witness :
    "a" ∈ keysOf (find_inconsistencies
      [("a", [("1", "x"), ("2", "y")])]
      [("a", [("1", 3), ("2", 4)])]).size_differences := by
  have h := c1_size_differences_iff
    [("a", [("1", "x"), ("2", "y")])] [("a", [("1", 3), ("2", 4)])]
    (by decide) (by decide) "a"
  exact h.1.mpr ⟨by decide, by decide⟩

/-- C3: a path is recorded in the inconsistent-checksum finding exactly
when its checksum-table entry holds more than one distinct checksum, and
it is recorded with that entry unchanged. -/
theorem c3_inconsistent_spec (c : Table String) (s : Table Nat) (hc : WFt c) :
    ∀ (p : String) (bc : Inner String),
      tlookup (find_inconsistencies c s).inconsistent_files p = some bc ↔
        (tlookup c p = some bc ∧ 1 < ((bc.map Prod.snd).dedup).length) := by
  intro p bc
  rw [fi_inc]
  exact tlookup_incP_iff hc.1

theorem c3_witness :
    tlookup (find_inconsistencies
      [("a", [("1", "x"), ("2", "y")])] []).inconsistent_files "a"
      = some [("1", "x"), ("2", "y")] := by
  have h := c3_inconsistent_spec [("a", [("1", "x"), ("2", "y")])] []
    (by decide) "a" [("1", "x"), ("2", "y")]
  exact h.mpr ⟨by decide, by decide⟩

/-- C10: a path whose checksum-table entry holds exactly one build is in
neither the inconsistent-checksum finding nor the size-differences
finding; it can still be in the missing-files finding (last conjunct: a
concrete table where that happens). -/
theorem c10_singleton_entry (c : Table String) (s : Table Nat) (hc : WFt c) :
    (∀ (p b v : String),
      tlookup c p = some [(b, v)] →
        p ∉ keysOf (find_inconsistencies c s).inconsistent_files
          ∧ p ∉ keysOf (find_inconsistencies c s).size_differences)
    ∧ ∃ (c' : Table String) (s' : Table Nat) (p b v : String),
        tlookup c' p = some [(b, v)]
          ∧ p ∈ keysOf (find_inconsistencies c' s').missing_files := by
  constructor
  · intro p b v h
    have hninc : p ∉ keysOf (incP c) := by
      intro hmem
      rcases mem_keysOf_incP.mp hmem with ⟨e, he, hk, hq⟩
      have hel : (p, e.2) ∈ c := by
        rw [← hk]
        exact he
      have := tlookup_eq_some_of_mem hc.1 hel
      rw [h] at this
      have h2 : e.2 = [(b, v)] := Option.some_inj.mp this.symm
      rw [h2] at hq
      simp at hq
    constructor
    · rw [fi_inc]
      exact hninc
    · rw [fi_sd]
      intro hmem
      exact hninc (mem_keysOf_sdP.mp hmem).1
  · refine ⟨[("a", [("1", "x")]), ("b", [("1", "x"), ("2", "x")])], [],
      "a", "1", "x", by decide, ?_⟩
    rw [fi_miss]
    decide

theorem c10_witness :
    "b" ∉ keysOf (find_inconsistencies
        [("b", [("1", "x")]), ("a", [("1", "x"), ("2", "y")])]
        []).inconsistent_files := by
  have h := (c10_singleton_entry
    [("b", [("1", "x")]), ("a", [("1", "x"), ("2", "y")])] [] (by decide)).1
    "b" "1" "x" (by decide)
  exact h.1

theorem keysOf_subset_allBN {c : Table String} {e : String × Inner String}
    (he : e ∈ c) : keysOf e.2 ⊆ all_build_numbers c := by
  intro b hb
  unfold all_build_numbers
  rw [List.mem_dedup, List.mem_flatMap]
  exact ⟨e, he, hb⟩

theorem length_lt_iff_ssubset {l₁ l₂ : List String} (h1 : l₁.Nodup)
    (h2 : l₂.Nodup) (hsub : l₁ ⊆ l₂) :
    l₁.length < l₂.length ↔ l₁.toFinset ⊂ l₂.toFinset := by
  have hsubF : l₁.toFinset ⊆ l₂.toFinset := by
    intro x hx
    rw [List.mem_toFinset]
    exact hsub (List.mem_toFinset.mp hx)
  rw [← List.toFinset_card_of_nodup h1, ← List.toFinset_card_of_nodup h2]
  constructor
  · intro hlt
    rw [ssubset_iff_subset_ne]
    refine ⟨hsubF, fun heq => ?_⟩
    rw [heq] at hlt
    omega
  · exact Finset.card_lt_card

theorem mem_allBN_iff {c : Table String} {b : String} :
    b ∈ all_build_numbers c ↔ ∃ e ∈ c, b ∈ keysOf e.2 := by
  unfold all_build_numbers
  rw [List.mem_dedup, List.mem_flatMap]

/-- C2: a path is in the missing-files finding exactly when the build
identifiers of its checksum entry form a strict subset of the full set of
identifiers observed across the whole table; the recorded value is the
ascending sorted list of the absent identifiers; a build with no entry
anywhere is not part of the observed set. -/
theorem c2_missing_files_spec (c : Table String) (s : Table Nat) (hc : WFt c) :
    (∀ p : String,
      p ∈ keysOf (find_inconsistencies c s).missing_files ↔
        ∃ bc, tlookup c p = some bc
          ∧ (keysOf bc).toFinset ⊂ (all_build_numbers c).toFinset)
    ∧ (∀ (p : String) (l : List String),
        tlookup (find_inconsistencies c s).missing_files p = some l →
          List.Sorted strLe l
          ∧ ∃ bc, tlookup c p = some bc
              ∧ ∀ b, b ∈ l ↔ (b ∈ all_build_numbers c ∧ b ∉ keysOf bc))
    ∧ (∀ b, b ∈ all_build_numbers c ↔ ∃ e ∈ c, b ∈ keysOf e.2) := by
  refine ⟨?_, ?_, fun b => mem_allBN_iff⟩
  · intro p
    rw [fi_miss]
    unfold missP
    rw [keysOf_map_keyfixed
      (fun e => (e.1, sortStr ((all_build_numbers c).filter
        (fun b => decide (b ∉ keysOf e.2))))) (fun e => rfl)]
    rw [keysOf_filter_mem]
    constructor
    · rintro ⟨e, he, hk, hlen⟩
      simp only [decide_eq_true_eq] at hlen
      refine ⟨e.2, tlookup_eq_some_of_mem hc.1 (by rw [← hk]; exact he), ?_⟩
      exact (length_lt_iff_ssubset (hc.2 e he) (List.nodup_dedup _)
        (keysOf_subset_allBN he)).mp hlen
    · rintro ⟨bc, hbc, hss⟩
      have hmem : (p, bc) ∈ c := tlookup_mem hbc
      refine ⟨(p, bc), hmem, rfl, ?_⟩
      simp only [decide_eq_true_eq]
      exact (length_lt_iff_ssubset (hc.2 (p, bc) hmem) (List.nodup_dedup _)
        (keysOf_subset_allBN hmem)).mpr hss
  · intro p l h
    rw [fi_miss] at h
    unfold missP tlookup at h
    rw [find?_map_keyfixed
      (fun e => (e.1, sortStr ((all_build_numbers c).filter
        (fun b => decide (b ∉ keysOf e.2))))) (fun e => rfl)] at h
    rw [find?_filter_of_nodup _ _ hc.1] at h
    cases hf : c.find? (fun e => e.1 = p) with
    | none => rw [hf] at h; cases h
    | some e =>
        rw [hf, Option.some_bind] at h
        by_cases hlen : (decide ((keysOf e.2).length
            < (all_build_numbers c).length)) = true
        · rw [if_pos hlen, Option.map_some', Option.map_some'] at h
          have hl : l = sortStr ((all_build_numbers c).filter
              (fun b => decide (b ∉ keysOf e.2))) :=
            (Option.some_inj.mp h).symm
          have hkey : e.1 = p := by
            have := List.find?_some hf
            simpa using this
          refine ⟨hl ▸ sortStr_sorted _, e.2, ?_, ?_⟩
          · unfold tlookup
            rw [hf, Option.map_some']
          · intro b
            rw [hl, mem_sortStr, List.mem_filter]
            simp
        · rw [if_neg hlen, Option.map_none'] at h
          cases h

theorem c2_witness :
    "a" ∈ keysOf (find_inconsistencies
      [("a", [("1", "x")]), ("b", [("1", "x"), ("2", "x")])] []).missing_files := by
  have h := (c2_missing_files_spec
    [("a", [("1", "x")]), ("b", [("1", "x"), ("2", "x")])] [] (by decide)).1 "a"
  exact h.mpr ⟨[("1", "x")], by decide, by decide⟩

/-! ## Lemmas: `str.replace` and the build identifier (C4) -/

theorem pyReplace_append_pat {pat repl : List Char} (rest : List Char)
    (hp : pat ≠ []) :
    pyReplace pat repl (pat ++ rest) = repl ++ pyReplace pat repl rest := by
  rcases pat with _ | ⟨c, pat'⟩
  · simp at hp
  · rw [List.cons_append, pyReplace]
    rw [dif_pos]
    · congr 1
      congr 1
      rw [← List.cons_append]
      exact List.drop_left (c :: pat') rest
    · constructor
      · exact hp
      · rw [← List.cons_append]
        exact (List.take_left (c :: pat') rest).symm

theorem pyReplace_no_occ {pat repl : List Char} (s : List Char)
    (h : hasOcc pat s = false) : pyReplace pat repl s = s := by
  induction s with
  | nil => rw [pyReplace]
  | cons c rest ih =>
      unfold hasOcc at h
      rw [Bool.or_eq_false_iff] at h
      rw [pyReplace, dif_neg, ih h.2]
      rintro ⟨hp, htake⟩
      rw [htake] at h
      simp at h

/-- C4 counterexample: the script computes the identifier with Python
`str.replace("build-", "")`, which removes every occurrence of `build-`,
not only the leading prefix; for the directory name `build-build-2`
(prefix `build-` followed by the suffix `build-2`) the identifier is `2`,
not the suffix `build-2` the claim requires. -/
theorem c4_counterexample :
    "build-build-2" = "build-" ++ "build-2"
    ∧ buildNumberOf ("build-" ++ "build-2") ≠ "build-2"
    ∧ buildNumberOf ("build-" ++ "build-2") = "2" := by
  have hv : buildNumberOf ("build-" ++ "build-2") = "2" := by
    unfold buildNumberOf pyReplaceStr
    apply String.ext
    show pyReplace ("build-").data ("").data (("build-" ++ "build-2").data)
      = ("2").data
    rw [String.data_append]
    rw [pyReplace_append_pat _ (by decide)]
    have h2 : ("build-2" : String).data = ("build-").data ++ ("2").data := by
      decide
    rw [h2, pyReplace_append_pat _ (by decide)]
    rw [pyReplace_no_occ (("2" : String).data) (by decide)]
    decide
  refine ⟨by decide, ?_, hv⟩
  rw [hv]
  decide

/-- C4 amended: for a directory name `build-` ++ s whose suffix s does not
itself contain the substring `build-`, the identifier is exactly s (the
prefix-stripping reading); when s contains `build-`, the replace-all
semantics removes those occurrences too. -/
theorem c4_amended_build_identifier (s : String)
    (h : hasOcc (("build-" : String).data) s.data = false) :
    buildNumberOf ("build-" ++ s) = s := by
  unfold buildNumberOf pyReplaceStr
  apply String.ext
  show pyReplace ("build-").data ("").data (("build-" ++ s).data) = s.data
  rw [String.data_append]
  rw [pyReplace_append_pat _ (by decide)]
  rw [pyReplace_no_occ s.data h]
  rfl

theorem c4_witness :
    hasOcc (("build-" : String).data) ("001" : String).data = false
    ∧ buildNumberOf ("build-" ++ "001") = "001" :=
  ⟨by decide, c4_amended_build_identifier "001" (by decide)⟩

/-- C5: the locator returns exactly the children whose names start with
`build-`, joined onto the version directory, as the sorted-by-name list;
the result is sorted and invariant under permutation of the directory
listing. -/
theorem c5_find_builds_spec (vd : String) (l : List String) :
    (find_builds vd (some l)
        = (sortStr (l.filter (fun item => strStartsWith item "build-"))).map
            (fun item => vd ++ "/" ++ item))
    ∧ List.Sorted strLe (find_builds vd (some l))
    ∧ (∀ x, x ∈ find_builds vd (some l) ↔
        ∃ item ∈ l, strStartsWith item "build-" = true ∧ x = vd ++ "/" ++ item)
    ∧ (∀ l₂, l.Perm l₂ → find_builds vd (some l) = find_builds vd (some l₂)) := by
  refine ⟨?_, ?_, ?_, ?_⟩
  · show sortStr ((l.filter (fun item => strStartsWith item "build-")).map
        (fun item => vd ++ "/" ++ item)) = _
    exact sortStr_map_append (vd ++ "/") _
  · exact sortStr_sorted _
  · intro x
    show x ∈ sortStr _ ↔ _
    rw [mem_sortStr, List.mem_map]
    constructor
    · rintro ⟨item, hitem, rfl⟩
      exact ⟨item, List.mem_of_mem_filter hitem, (List.mem_filter.mp hitem).2, rfl⟩
    · rintro ⟨item, hmem, hq, rfl⟩
      exact ⟨item, List.mem_filter.mpr ⟨hmem, hq⟩, rfl⟩
  · intro l₂ hperm
    show sortStr _ = sortStr _
    exact sortStr_eq_of_perm ((hperm.filter _).map _)

theorem c5_witness :
    find_builds "r" (some ["build-b", "x", "build-a"])
      = find_builds "r" (some ["build-a", "build-b", "x"]) :=
  (c5_find_builds_spec "r" ["build-b", "x", "build-a"]).2.2.2
    ["build-a", "build-b", "x"] (by decide)

/-! ## Lemmas: streaming hash (C6) -/

theorem foldl_sha256_update (chunks : List (List Nat)) :
    ∀ st, (chunks.foldl sha256_update st).consumed = st.consumed ++ chunks.flatten := by
  induction chunks with
  | nil => intro st; simp
  | cons ch chs ih =>
      intro st
      rw [List.foldl_cons, ih, List.flatten_cons]
      simp [sha256_update, List.append_assoc]

theorem flatten_readChunks (n : Nat) (hn : 0 < n) :
    ∀ content, (readChunks n content).flatten = content := by
  intro content
  induction content using readChunks.induct n with
  | case1 c h =>
      rcases h with h | h
      · omega
      · rw [h, readChunks]
        simp
  | case2 c h ih =>
      rw [readChunks, dif_neg h]
      rw [List.flatten_cons, ih]
      exact List.take_append_drop n c

/-- C6: streaming the file content through the hash in 4096-byte chunks
yields the same digest as consuming the whole content in one update; more
generally any partition of the content into chunks yields that digest. -/
theorem c6_streaming_checksum (content : List Nat) :
    (calculate_file_checksum content
        = sha256_hexdigest (sha256_update sha256_init content))
    ∧ ∀ chunks : List (List Nat), chunks.flatten = content →
        sha256_hexdigest (chunks.foldl sha256_update sha256_init)
          = sha256_hexdigest (sha256_update sha256_init content) := by
  have key : ∀ chunks : List (List Nat), chunks.flatten = content →
      sha256_hexdigest (chunks.foldl sha256_update sha256_init)
        = sha256_hexdigest (sha256_update sha256_init content) := by
    intro chunks hch
    unfold sha256_hexdigest
    rw [foldl_sha256_update]
    rw [show (sha256_update sha256_init content).consumed
      = sha256_init.consumed ++ content from rfl]
    rw [hch]
  refine ⟨?_, key⟩
  unfold calculate_file_checksum
  exact key _ (flatten_readChunks 4096 (by norm_num) content)

theorem c6_witness :
    [[1], [2, 3]].flatten = [1, 2, 3]
    ∧ sha256_hexdigest ([[1], [2, 3]].foldl sha256_update sha256_init)
        = sha256_hexdigest (sha256_update sha256_init [1, 2, 3]) :=
  ⟨by decide, (c6_streaming_checksum [1, 2, 3]).2 [[1], [2, 3]] (by decide)⟩

/-! ## Lemmas: `main` exit behavior (C7) -/

/-- C7: with zero builds located (in particular with no version
directory) the run exits 1 having hashed nothing and written no report;
with at least one build it exits 0, writes the report exactly when
requested, and hashes every file of every build. -/
theorem c7_exit_behavior (vd : String) (dl : Option (List String))
    (fs : String → BuildDirs) (w : Bool) :
    (find_builds vd dl = [] → main_model vd dl fs w = ⟨1, 0, false⟩)
    ∧ main_model vd none fs w = ⟨1, 0, false⟩
    ∧ (find_builds vd dl ≠ [] →
        (main_model vd dl fs w).exitCode = 0
        ∧ (main_model vd dl fs w).reportWritten = w
        ∧ (main_model vd dl fs w).hashes
            = ((find_builds vd dl).map (fun b => countFiles (fs b))).sum) := by
  refine ⟨?_, ?_, ?_⟩
  · intro h
    unfold main_model
    rw [if_pos h]
  · rfl
  · intro h
    unfold main_model
    rw [if_neg h]
    refine ⟨rfl, rfl, ?_⟩
    show ((((find_builds vd dl).map (fun b => (b, fs b))).map
      (fun bp => countFiles bp.2)).sum) = _
    rw [List.map_map]
    rfl

theorem c7_witness :
    main_model "r" none (fun _ => ⟨none, none, none⟩) true = ⟨1, 0, false⟩
    ∧ (main_model "r" (some ["build-001"]) (fun _ => ⟨none, none, none⟩)
        true).exitCode = 0 :=
  ⟨(c7_exit_behavior "r" none (fun _ => ⟨none, none, none⟩) true).2.1,
   ((c7_exit_behavior "r" (some ["build-001"]) (fun _ => ⟨none, none, none⟩)
      true).2.2 (by decide)).1⟩

/-! ## Lemmas: detector purity and the defaultdict mutation (C8) -/

theorem sdP_congr {s₁ s₂ : Table Nat} (h : ∀ q, dget s₁ q = dget s₂ q)
    (l : Table String) : sdP s₁ l = sdP s₂ l := by
  unfold sdP
  rw [show (fun (e : String × Inner String) =>
      decide (1 < ((dget s₁ e.1 |>.map Prod.snd)).dedup.length))
    = (fun (e : String × Inner String) =>
      decide (1 < ((dget s₂ e.1 |>.map Prod.snd)).dedup.length))
    from funext (fun e => by rw [h e.1])]
  rw [show (fun (e : String × Inner String) => (e.1, dget s₁ e.1))
    = (fun (e : String × Inner String) => (e.1, dget s₂ e.1))
    from funext (fun e => by rw [h e.1])]

theorem fold_sizes_unchanged (allBN : List String) :
    ∀ (l : Table String) (acc : Findings),
      (∀ e ∈ l, (acc.sizes_after.find? (fun x => x.1 = e.1)).isSome) →
      (l.foldl (detectStep allBN) acc).sizes_after = acc.sizes_after := by
  intro l
  induction l with
  | nil => intro acc _; rfl
  | cons e l ih =>
      intro acc h
      have hstep : (detectStep allBN acc e).sizes_after = acc.sizes_after := by
        unfold detectStep
        by_cases hinc : 1 < ((e.2.map Prod.snd).dedup).length
        · simp only [hinc, if_true]
          by_cases hsz : 1 < (((dget acc.sizes_after e.1).map Prod.snd).dedup).length
          · simp only [hsz, if_true]
            unfold dtouch
            rw [if_pos (h e (List.mem_cons_self e l))]
          · simp only [hsz, if_false]
            unfold dtouch
            rw [if_pos (h e (List.mem_cons_self e l))]
        · simp [hinc]
      rw [List.foldl_cons, ih (detectStep allBN acc e) ?_, hstep]
      intro x hx
      rw [hstep]
      exact h x (List.mem_cons_of_mem e hx)

/-- C8 counterexample: the detector does not always leave the input size
table unchanged.  The size table is a `defaultdict(dict)`; when a path
with inconsistent checksums has no size entry, the subscript
`file_sizes[file_path]` (line 109) inserts an empty inner dict into the
caller's table.  Here the size table passed in is empty and comes back
with the entry `("a", {})`. -/
theorem c8_counterexample :
    (find_inconsistencies [("a", [("1", "x"), ("2", "y")])] []).sizes_after
      ≠ ([] : Table Nat) := by decide

/-- C8 amended: the three findings are a pure deterministic function of
the tables — re-running the detector over the same checksum table and the
size table left behind by a first run reproduces the findings exactly —
and the size table is returned unchanged whenever every path of the
checksum table has an entry in it (true for all collector-produced table
pairs); the checksum table is never written at all.  Only the
"defaultdict inserts an empty entry for an inconsistent path missing from
the size table" case of the counterexample is excluded. -/
theorem c8_amended_detector (c : Table String) (s : Table Nat) :
    ((find_inconsistencies c (find_inconsistencies c s).sizes_after).results
        = (find_inconsistencies c s).results)
    ∧ ((∀ e ∈ c, ∃ x ∈ s, x.1 = e.1) →
        (find_inconsistencies c s).sizes_after = s) := by
  constructor
  · unfold Findings.results
    rw [fi_inc, fi_inc, fi_miss, fi_miss, fi_sd, fi_sd]
    rw [sdP_congr (fi_sizes c s) c]
  · intro h
    unfold find_inconsistencies
    apply fold_sizes_unchanged
    intro e he
    rw [List.find?_isSome]
    rcases h e he with ⟨x, hx, hk⟩
    exact ⟨x, hx, by simp [hk]⟩

theorem c8_witness :
    (find_inconsistencies [("a", [("1", "x"), ("2", "y")])]
        [("a", [("1", 3), ("2", 3)])]).sizes_after
      = [("a", [("1", 3), ("2", 3)])] :=
  (c8_amended_detector [("a", [("1", "x"), ("2", "y")])]
    [("a", [("1", 3), ("2", 3)])]).2 (by decide)

/-! ## Lemmas: the two tables share one key structure (C9) -/

theorem any_key_iff {α : Type} {l : List (String × α)} {p : String} :
    l.any (fun e => e.1 = p) = true ↔ p ∈ keysOf l := by
  rw [List.any_eq_true, mem_keysOf]
  constructor
  · rintro ⟨e, he, hk⟩
    exact ⟨e, he, by simpa using hk⟩
  · rintro ⟨e, he, hk⟩
    exact ⟨e, he, by simpa using hk⟩

theorem keysOf_innerInsert {α : Type} (d : Inner α) (b : String) (v : α) :
    keysOf (innerInsert d b v) = skelKeyInsert (keysOf d) b := by
  unfold innerInsert skelKeyInsert
  by_cases h : d.any (fun e => e.1 = b) = true
  · rw [if_pos h, if_pos (any_key_iff.mp h)]
    exact keysOf_map_keyfixed _ (fun e => by
      by_cases he : e.1 = b <;> simp [he])
  · rw [if_neg h, if_neg (fun hmem => h (any_key_iff.mpr hmem))]
    unfold keysOf
    rw [List.map_append]
    rfl

theorem skeleton_tableInsert {α : Type} (t : Table α) (p b : String) (v : α) :
    skeleton (tableInsert t p b v) = skelInsert (skeleton t) p b := by
  have hany : (skeleton t).any (fun e => e.1 = p) = t.any (fun e => e.1 = p) := by
    induction t with
    | nil => rfl
    | cons e tl ih =>
        unfold skeleton at *
        rw [List.map_cons, List.any_cons, List.any_cons, ih]
  unfold tableInsert skelInsert
  by_cases h : t.any (fun e => e.1 = p) = true
  · rw [if_pos h, if_pos (by rw [hany]; exact h)]
    unfold skeleton
    rw [List.map_map, List.map_map]
    apply List.map_congr_left
    intro e _
    by_cases he : e.1 = p
    · simp only [Function.comp_apply, he, if_true]
      rw [keysOf_innerInsert]
    · simp [Function.comp_apply, he]
  · rw [if_neg h, if_neg (by rw [hany]; exact h)]
    unfold skeleton
    rw [List.map_append]
    have : keysOf (innerInsert ([] : Inner α) b v) = [b] := by
      rw [keysOf_innerInsert]
      rfl
    simp [this]

theorem processFiles_skel (bn : String) (files : List BFile) :
    ∀ acc : Table String × Table Nat, skeleton acc.1 = skeleton acc.2 →
      skeleton (processFiles acc bn files).1
        = skeleton (processFiles acc bn files).2 := by
  induction files with
  | nil => intro acc h; exact h
  | cons f fl ih =>
      intro acc h
      show skeleton ((f :: fl).foldl _ acc).1 = skeleton ((f :: fl).foldl _ acc).2
      rw [List.foldl_cons]
      exact ih _ (by
        show skeleton (tableInsert acc.1 f.rel_path bn
            (calculate_file_checksum f.content))
          = skeleton (tableInsert acc.2 f.rel_path bn f.size)
        rw [skeleton_tableInsert, skeleton_tableInsert, h])

theorem processDir_skel (bn : String) (dir : Option (List BFile))
    (acc : Table String × Table Nat) (h : skeleton acc.1 = skeleton acc.2) :
    skeleton (processDir acc bn dir).1 = skeleton (processDir acc bn dir).2 := by
  cases dir with
  | none => exact h
  | some files => exact processFiles_skel bn files acc h

theorem compare_fold_skel :
    ∀ (builds : List (String × BuildDirs)) (acc : Table String × Table Nat),
      skeleton acc.1 = skeleton acc.2 →
      skeleton (builds.foldl compareStep acc).1
        = skeleton (builds.foldl compareStep acc).2 := by
  intro builds
  induction builds with
  | nil => intro acc h; exact h
  | cons bp bl ih =>
      intro acc h
      rw [List.foldl_cons]
      exact ih _ (by
        unfold compareStep
        exact processDir_skel _ _ _ (processDir_skel _ _ _
          (processDir_skel _ _ _ h)))

theorem hasEntry_iff_skeleton {α : Type} (t : Table α) (p b : String) :
    hasEntry t p b ↔ ∃ q ∈ skeleton t, q.1 = p ∧ b ∈ q.2 := by
  unfold hasEntry skeleton
  constructor
  · rintro ⟨e, he, hk, hb⟩
    exact ⟨(e.1, keysOf e.2), List.mem_map.mpr ⟨e, he, rfl⟩, hk, hb⟩
  · rintro ⟨q, hq, hk, hb⟩
    rcases List.mem_map.mp hq with ⟨e, he, rfl⟩
    exact ⟨e, he, hk, hb⟩

/-- C9: after collection, the checksum table and the size table have the
same key structure — the same paths in the same order, each with the same
build identifiers — so an entry exists at `(path, build)` in one table
exactly when it does in the other. -/
theorem c9_table_key_structure (builds : List (String × BuildDirs)) :
    skeleton (compare_checksums builds).1 = skeleton (compare_checksums builds).2
    ∧ ∀ p b, hasEntry (compare_checksums builds).1 p b
        ↔ hasEntry (compare_checksums builds).2 p b := by
  have hskel : skeleton (compare_checksums builds).1
      = skeleton (compare_checksums builds).2 := by
    unfold compare_checksums
    exact compare_fold_skel builds ([], []) rfl
  refine ⟨hskel, fun p b => ?_⟩
  rw [hasEntry_iff_skeleton, hasEntry_iff_skeleton, hskel]

end CompareChecksums
